import Mathlib

/-
Verification of the citation-graph generator (generate.py).

The pipeline: title similarity matching (are_titles_similar), adjacent
deduplication into a title map (get_title_map), citation resolution
(get_citations), graph construction (get_networkx_graph) and distillation
to the largest component's top-500 central nodes (post_processing_nx_graph).

Strings are handled through their character lists.  Python's str.lower is
modelled by Char.toLower (ASCII case folding, which covers every character
the similarity logic inspects), str.strip by dropping whitespace at both
ends, and the `in` substring test by an explicit scan.
-/

/-- Python `'needle' in hay`: does the character list `hay` contain
`needle` as a contiguous substring? -/
def hasSubstr (needle : List Char) : List Char → Bool
  | [] => needle.isEmpty
  | c :: rest => needle.isPrefixOf (c :: rest) || hasSubstr needle rest

/-- Python str.strip: drop whitespace from both ends of a character list. -/
def stripChars (l : List Char) : List Char :=
  ((l.dropWhile Char.isWhitespace).reverse.dropWhile Char.isWhitespace).reverse

/-- `title.lower().strip()` from are_titles_similar, as a character list. -/
def normalizeTitle (s : String) : List Char :=
  stripChars (s.data.map Char.toLower)

/-- The character list of the literal substring "reply". -/
def replyChars : List Char := "reply".data

/-- Body of are_titles_similar after both titles are normalized. -/
def similarCore (t1 t2 : List Char) : Bool :=
  if hasSubstr replyChars t1 || hasSubstr replyChars t2 then false
  else if t1.length > t2.length then
    if t1.length - t2.length > 20 then false
    else t1.take t2.length == t2
  else
    if t2.length - t1.length > 20 then false
    else t2.take t1.length == t1

/-- generate.py are_titles_similar: true if the two titles are considered
similar (lowercase + strip, reject any "reply" title, require length gap
at most 20 and the shorter to be a prefix of the longer). -/
def are_titles_similar (title1 title2 : String) : Bool :=
  similarCore (normalizeTitle title1) (normalizeTitle title2)

/-
get_title_map iterates over the title-sorted dataframe.  We model the
dataframe as the list of its titles (record i has title `titles.get i`)
and the Python dict as a function `String → Option Nat` (none = key
absent).  The loop body at index k is `tmStep`; `tmLoop titles k` is the
dict state after the first k iterations.  The Python lookup
`title_map[prior_title]` is modelled by reading the Option directly; the
theorem tmLoop_lookup_prior below shows the key is always present, so
the KeyError branch of the dict lookup is unreachable.
-/

/-- One iteration of the get_title_map loop at record index k. -/
def tmStep (titles : List String) (k : Nat) (m : String → Option Nat) :
    String → Option Nat :=
  if hk : k < titles.length then
    if k = 0 then
      fun t => if t = titles.get ⟨k, hk⟩ then some 0 else m t
    else
      if titles.get ⟨k, hk⟩ = titles.get ⟨k - 1, by omega⟩ ∨
          are_titles_similar (titles.get ⟨k, hk⟩) (titles.get ⟨k - 1, by omega⟩) = true then
        fun t => if t = titles.get ⟨k, hk⟩ then m (titles.get ⟨k - 1, by omega⟩) else m t
      else
        fun t => if t = titles.get ⟨k, hk⟩ then some k else m t
  else m

/-- Dict state after the first k iterations of the get_title_map loop. -/
def tmLoop (titles : List String) : Nat → (String → Option Nat)
  | 0 => fun _ => none
  | k + 1 => tmStep titles k (tmLoop titles k)

/-- generate.py get_title_map: the title → dataframe-index map after the
whole loop has run. -/
def get_title_map (titles : List String) : String → Option Nat :=
  tmLoop titles titles.length

/-- The comparison get_title_map makes between record j+1 and its
immediate predecessor: exact title equality or the similarity matcher. -/
def adjSimilar (titles : List String) (j : Nat) (hj : j + 1 < titles.length) : Prop :=
  titles.get ⟨j + 1, hj⟩ = titles.get ⟨j, by omega⟩ ∨
  are_titles_similar (titles.get ⟨j + 1, hj⟩) (titles.get ⟨j, by omega⟩) = true

instance (titles : List String) (j : Nat) (hj : j + 1 < titles.length) :
    Decidable (adjSimilar titles j hj) :=
  inferInstanceAs (Decidable (_ ∨ _ = true))

/-- Modelled from the spec (§4.2 TitleIndex): the canonical id the spec
says record k receives — its own index for the first record or when it
matches neither equality nor the similarity matcher against the
immediately preceding record, and otherwise the preceding record's
already-resolved canonical id. -/
def canonicalIdSpec (titles : List String) : Nat → Nat
  | 0 => 0
  | k + 1 =>
    if hk : k + 1 < titles.length then
      if adjSimilar titles k hk then canonicalIdSpec titles k
      else k + 1
    else k + 1

/-
get_citations.  The bibliography files are external inputs: their content
is modelled by an oracle `bib : String → List String` sending a resolved
json path to the list of cited titles it holds (the behaviour of
get_citation_titles_from_json_file on a readable file).  A pandas cell of
the metadata dataframe that is NaN (the `not isinstance(_, str)` test) is
modelled as `none`.
-/

/-- A metadata row, restricted to the fields get_citations reads. -/
structure PaperRow where
  title : String
  pmc_json_files : Option String
  pdf_json_files : Option String

/-- The `not isinstance(jsonFilePath, str) or jsonFilePath == ''` test. -/
def notUsable (o : Option String) : Bool :=
  match o with
  | none => true
  | some s => s == ""

/-- Bibliography source selection: prefer pmc_json_files, fall back to
pdf_json_files, give up (none) when both are missing or empty. -/
def selectJsonPath (row : PaperRow) : Option String :=
  let j := if notUsable row.pmc_json_files then row.pdf_json_files
           else row.pmc_json_files
  if notUsable j then none else j

/-- `jsonFilePath.split(';')[0]`: first of the semicolon-separated paths. -/
def firstPath (s : String) : String := (s.splitOn ";").headD ""

/-- PATH_CORD_DATA_ROOT from generate.py. -/
def PATH_CORD_DATA_ROOT : String := "cord-2020-06-02"

/-- os.path.join for the relative paths the metadata holds. -/
def pathJoin (a b : String) : String := a ++ "/" ++ b

/-- The json path get_citations actually opens for a selected reference. -/
def resolvedPath (p : String) : String :=
  pathJoin PATH_CORD_DATA_ROOT (firstPath p)

/-- The get_citations loop body for one row: resolve the row's own title
through the map (none models the KeyError, shown unreachable elsewhere),
select the bibliography source, and emit one edge per cited title that is
an exact key of the map. -/
def row_citations (tm : String → Option Nat) (bib : String → List String)
    (row : PaperRow) : Option (List (Nat × Nat)) :=
  match tm row.title with
  | none => none
  | some fromIdx =>
    match selectJsonPath row with
    | none => some []
    | some jsonFilePath =>
      some ((bib (resolvedPath jsonFilePath)).filterMap
        (fun cited => (tm cited).map (fun toIdx => (fromIdx, toIdx))))

/-- generate.py get_citations over the whole dataframe: concatenate the
edges of every record in order, propagating the failure of any record. -/
def get_citations (rows : List PaperRow) (tm : String → Option Nat)
    (bib : String → List String) : Option (List (Nat × Nat)) :=
  match rows with
  | [] => some []
  | r :: rest =>
    match row_citations tm bib r, get_citations rest tm bib with
    | some es, some esRest => some (es ++ esRest)
    | _, _ => none

/-
The networkx graph.  Undirected simple graphs are modelled by a node set
and a set of normalized edges (min endpoint first), so that nx.Graph's
collapsing of duplicate insertions is set insertion.  The per-node
attribute dictionaries that get_networkx_graph copies out of the
dataframe carry no structure the claims mention and are not modelled.
-/

/-- A networkx-style undirected graph on Nat node ids. -/
structure NxGraph where
  nodes : Finset Nat
  edges : Finset (Nat × Nat)
deriving DecidableEq

/-- nx.Graph.add_edge: ensure both endpoints are nodes, insert the
normalized edge. -/
def add_edge (G : NxGraph) (a b : Nat) : NxGraph :=
  { nodes := insert a (insert b G.nodes),
    edges := insert (min a b, max a b) G.edges }

/-- generate.py get_networkx_graph: fold the citation list into an empty
graph, creating nodes lazily as edge endpoints appear. -/
def get_networkx_graph (citations : List (Nat × Nat)) : NxGraph :=
  citations.foldl (fun G c => add_edge G c.1 c.2) ⟨∅, ∅⟩

/-- Enumerate a multiset of naturals as an ascending list (insertion
sort, so that the kernel can evaluate it). -/
def msortNat (s : Multiset Nat) : List Nat :=
  Quot.liftOn s (fun l => l.insertionSort (· ≤ ·)) fun _ _ h =>
    List.eq_of_perm_of_sorted
      ((List.perm_insertionSort _ _).trans (h.trans (List.perm_insertionSort _ _).symm))
      (List.sorted_insertionSort _ _) (List.sorted_insertionSort _ _)

/-- A node set as a list.  Python iterates sets in an unspecified order;
we fix the canonical ascending order. -/
def sortedNodes (s : Finset Nat) : List Nat := msortNat s.val

/-- Lexicographic order on edges, used to enumerate the edge set. -/
def edgeLe (e f : Nat × Nat) : Prop :=
  e.1 < f.1 ∨ (e.1 = f.1 ∧ e.2 ≤ f.2)

instance : DecidableRel edgeLe :=
  fun e f => inferInstanceAs (Decidable (e.1 < f.1 ∨ (e.1 = f.1 ∧ e.2 ≤ f.2)))

instance : IsTrans (Nat × Nat) edgeLe :=
  ⟨fun a b c hab hbc => by
    rcases hab with h | ⟨h1, h2⟩ <;> rcases hbc with h' | ⟨h1', h2'⟩ <;>
      simp only [edgeLe] <;> omega⟩

instance : IsAntisymm (Nat × Nat) edgeLe :=
  ⟨fun a b hab hba => by
    rcases a with ⟨a1, a2⟩; rcases b with ⟨b1, b2⟩
    rcases hab with h | ⟨h1, h2⟩ <;> rcases hba with h' | ⟨h1', h2'⟩ <;>
      simp_all <;> omega⟩

instance : IsTotal (Nat × Nat) edgeLe :=
  ⟨fun a b => by
    simp only [edgeLe]
    omega⟩

/-- Enumerate a multiset of edges as a lexicographically ascending list. -/
def msortEdges (s : Multiset (Nat × Nat)) : List (Nat × Nat) :=
  Quot.liftOn s (fun l => l.insertionSort edgeLe) fun _ _ h =>
    List.eq_of_perm_of_sorted
      ((List.perm_insertionSort _ _).trans (h.trans (List.perm_insertionSort _ _).symm))
      (List.sorted_insertionSort _ _) (List.sorted_insertionSort _ _)

/-- An edge set as a list, in a fixed canonical order. -/
def sortedEdges (s : Finset (Nat × Nat)) : List (Nat × Nat) :=
  msortEdges s.val

/-- One union-find style merge: an edge (a, b) fuses every component
touching a or b into one.  Models the effect of one edge on
nx.connected_components. -/
def mergeStep (comps : List (Finset Nat)) (a b : Nat) : List (Finset Nat) :=
  (comps.filter (fun s => a ∈ s ∨ b ∈ s)).foldl (· ∪ ·) ∅ ::
    comps.filter (fun s => ¬(a ∈ s ∨ b ∈ s))

/-- nx.connected_components: start from singleton components and fuse
along every edge. -/
def connected_components (G : NxGraph) : List (Finset Nat) :=
  (sortedEdges G.edges).foldl (fun cs e => mergeStep cs e.1 e.2)
    ((sortedNodes G.nodes).map (fun n => {n}))

/-- Python `max(comps, key=len)` over a nonempty list: keep the first
component seen whose size is not exceeded later. -/
def maxByLen (c : Finset Nat) (cs : List (Finset Nat)) : Finset Nat :=
  cs.foldl (fun best x => if best.card < x.card then x else best) c

/-- `max(nx.connected_components(G), key=len)`; none models the
ValueError Python raises on an empty sequence. -/
def largest_component (G : NxGraph) : Option (Finset Nat) :=
  match connected_components G with
  | [] => none
  | c :: cs => some (maxByLen c cs)

/-- G.subgraph(s): induced subgraph on the node set s. -/
def subgraphOn (G : NxGraph) (s : Finset Nat) : NxGraph :=
  { nodes := G.nodes ∩ s,
    edges := G.edges.filter (fun e => e.1 ∈ s ∧ e.2 ∈ s) }

/-- heapq.nlargest(k, pr, key=pr.get): the k keys of highest score. -/
def nlargest (k : Nat) (l : List Nat) (key : Nat → ℚ) : List Nat :=
  (l.insertionSort (fun a b => key b ≤ key a)).take k

/-- generate.py post_processing_nx_graph: restrict to the largest
connected component, keep the 500 nodes of highest centrality score,
induce.  nx.pagerank is an external library computation, abstracted as a
score function on the nodes of the restricted graph; the claims settled
here hold for every score.  The trailing relabelling loop only writes a
per-node 'id' attribute, which is outside the structural model. -/
def post_processing_nx_graph (score : NxGraph → Nat → ℚ) (G : NxGraph) :
    Option NxGraph :=
  match largest_component G with
  | none => none
  | some comp =>
    let G1 := subgraphOn G comp
    let sel := nlargest 500 (sortedNodes G1.nodes) (score G1)
    some (subgraphOn G1 sel.toFinset)

/-
Concrete instances used by the evaluation witnesses.
-/

/-- A small concrete title map for witnesses. -/
def tmW : String → Option Nat := fun s =>
  if s = "alpha paper title" then some 0
  else if s = "beta paper title" then some 7 else none

/-- A small concrete bibliography oracle for witnesses. -/
def bibW : String → List String := fun _ =>
  ["beta paper title", "similar but not identical title", "beta paper title"]

/-- A small concrete metadata row for witnesses. -/
def rowW : PaperRow := ⟨"alpha paper title", some "pmc/alpha.json", none⟩

/-- A constant centrality score for witnesses. -/
def scoreW : NxGraph → Nat → ℚ := fun _ _ => 0

/-! Theorems. -/

theorem similarCore_comm (x y : List Char) : similarCore x y = similarCore y x := by
  unfold similarCore
  cases hx : hasSubstr replyChars x <;> cases hy : hasSubstr replyChars y <;>
    simp only [Bool.or_false, Bool.false_or, Bool.true_or, Bool.or_true, if_true, if_false]
  rcases Nat.lt_trichotomy x.length y.length with h | h | h
  · have h1 : ¬ x.length > y.length := by omega
    have h2 : y.length > x.length := h
    simp only [h1, h2, if_true, if_false, if_pos, if_neg, not_false_iff]
  · have h1 : ¬ x.length > y.length := by omega
    have h2 : ¬ y.length > x.length := by omega
    have h3 : ¬ y.length - x.length > 20 := by omega
    have h4 : ¬ x.length - y.length > 20 := by omega
    simp only [if_neg h1, if_neg h2, if_neg h3, if_neg h4]
    rw [h, List.take_length]
    rw [← h, List.take_length]
    by_cases hxy : x = y
    · rw [hxy]
    · rw [beq_eq_false_iff_ne.mpr (Ne.symm hxy), beq_eq_false_iff_ne.mpr hxy]
  · have h1 : x.length > y.length := h
    have h2 : ¬ y.length > x.length := by omega
    simp only [h1, h2, if_true, if_false, if_pos, if_neg, not_false_iff]

/-- Claim C9: are_titles_similar is symmetric — swapping the two title
arguments never changes the verdict.  (It is a pure total function of its
two arguments by construction, so determinism and absence of side effects
hold trivially.) -/
theorem claim_C9 (a b : String) :
    are_titles_similar a b = are_titles_similar b a := by
  unfold are_titles_similar
  exact similarCore_comm _ _

/-- Claim C1, counterexample: the claim predicts that two titles that both
contain "reply", where the shorter is a prefix of the longer and the
length gap is at most 20, are judged similar; the code instead rejects
every pair in which either title contains "reply".  Witnessed at the pair
("reply to smith", "reply to smith et al"). -/
theorem claim_C1_counterexample :
    hasSubstr replyChars (normalizeTitle "reply to smith") = true ∧
    hasSubstr replyChars (normalizeTitle "reply to smith et al") = true ∧
    (normalizeTitle "reply to smith").isPrefixOf
      (normalizeTitle "reply to smith et al") = true ∧
    (normalizeTitle "reply to smith et al").length -
      (normalizeTitle "reply to smith").length ≤ 20 ∧
    are_titles_similar "reply to smith" "reply to smith et al" = false := by
  decide

/-- Claim C1, amended: are_titles_similar returns false as soon as at
least one of the two normalized titles contains the substring "reply" —
in particular when exactly one does, but also when both do, so the
length-difference and prefix rules are never reached for reply titles. -/
theorem claim_C1 (t1 t2 : String)
    (h : hasSubstr replyChars (normalizeTitle t1) = true ∨
         hasSubstr replyChars (normalizeTitle t2) = true) :
    are_titles_similar t1 t2 = false := by
  unfold are_titles_similar similarCore
  rcases h with h | h <;> simp [h]

theorem claim_C1_witness :
    (hasSubstr replyChars (normalizeTitle "a reply to smith") = true ∨
     hasSubstr replyChars (normalizeTitle "some other title") = true) ∧
    are_titles_similar "a reply to smith" "some other title" = false :=
  ⟨Or.inl (by decide), claim_C1 "a reply to smith" "some other title" (Or.inl (by decide))⟩

/-- Claim C2: when neither normalized title contains "reply", the verdict
is: false whenever the longer normalized title exceeds the shorter by
more than 20 characters, and otherwise true exactly when the shorter is a
prefix of the longer (so identical titles and titles differing only by a
trailing suffix within the 20-character budget are similar). -/
theorem claim_C2 (t1 t2 : String)
    (h1 : hasSubstr replyChars (normalizeTitle t1) = false)
    (h2 : hasSubstr replyChars (normalizeTitle t2) = false) :
    are_titles_similar t1 t2 = true ↔
      ((normalizeTitle t1).length - (normalizeTitle t2).length ≤ 20 ∧
       (normalizeTitle t2).length - (normalizeTitle t1).length ≤ 20 ∧
       (if (normalizeTitle t1).length ≤ (normalizeTitle t2).length
        then normalizeTitle t1 <+: normalizeTitle t2
        else normalizeTitle t2 <+: normalizeTitle t1)) := by
  unfold are_titles_similar similarCore
  rw [h1, h2]
  simp only [Bool.or_self, if_false, Bool.false_eq_true, false_and]
  rcases Nat.lt_trichotomy (normalizeTitle t1).length (normalizeTitle t2).length with h | h | h
  · have hgt : ¬ (normalizeTitle t1).length > (normalizeTitle t2).length := by omega
    have hle : (normalizeTitle t1).length ≤ (normalizeTitle t2).length := by omega
    rw [if_neg hgt, if_pos hle]
    by_cases hd : (normalizeTitle t2).length - (normalizeTitle t1).length > 20
    · rw [if_pos hd]
      constructor
      · intro hfalse; exact absurd hfalse (by simp)
      · intro ⟨_, hc, _⟩; omega
    · rw [if_neg hd]
      rw [beq_iff_eq, List.prefix_iff_eq_take]
      constructor
      · intro he; exact ⟨by omega, by omega, he.symm⟩
      · intro ⟨_, _, he⟩; exact he.symm
  · have hgt : ¬ (normalizeTitle t1).length > (normalizeTitle t2).length := by omega
    have hle : (normalizeTitle t1).length ≤ (normalizeTitle t2).length := by omega
    have hd : ¬ (normalizeTitle t2).length - (normalizeTitle t1).length > 20 := by omega
    rw [if_neg hgt, if_pos hle, if_neg hd]
    rw [beq_iff_eq, List.prefix_iff_eq_take]
    constructor
    · intro he; exact ⟨by omega, by omega, he.symm⟩
    · intro ⟨_, _, he⟩; exact he.symm
  · have hgt : (normalizeTitle t1).length > (normalizeTitle t2).length := h
    have hle : ¬ (normalizeTitle t1).length ≤ (normalizeTitle t2).length := by omega
    rw [if_pos hgt, if_neg hle]
    by_cases hd : (normalizeTitle t1).length - (normalizeTitle t2).length > 20
    · rw [if_pos hd]
      constructor
      · intro hfalse; exact absurd hfalse (by simp)
      · intro ⟨hc, _, _⟩; omega
    · rw [if_neg hd]
      rw [beq_iff_eq, List.prefix_iff_eq_take]
      constructor
      · intro he; exact ⟨by omega, by omega, he.symm⟩
      · intro ⟨_, _, he⟩; exact he.symm

theorem claim_C2_witness :
    hasSubstr replyChars (normalizeTitle "Effects of X") = false ∧
    hasSubstr replyChars (normalizeTitle "Effects of X.") = false ∧
    (are_titles_similar "Effects of X" "Effects of X." = true ↔
      ((normalizeTitle "Effects of X").length - (normalizeTitle "Effects of X.").length ≤ 20 ∧
       (normalizeTitle "Effects of X.").length - (normalizeTitle "Effects of X").length ≤ 20 ∧
       (if (normalizeTitle "Effects of X").length ≤ (normalizeTitle "Effects of X.").length
        then normalizeTitle "Effects of X" <+: normalizeTitle "Effects of X."
        else normalizeTitle "Effects of X." <+: normalizeTitle "Effects of X"))) :=
  ⟨by decide, by decide, claim_C2 "Effects of X" "Effects of X." (by decide) (by decide)⟩

theorem tmLoop_self (titles : List String) :
    ∀ k (hk : k < titles.length),
      tmLoop titles (k + 1) (titles.get ⟨k, hk⟩) = some (canonicalIdSpec titles k) := by
  intro k
  induction k with
  | zero =>
    intro hk
    show tmStep titles 0 (tmLoop titles 0) _ = _
    unfold tmStep
    rw [dif_pos hk, if_pos rfl]
    simp [canonicalIdSpec]
  | succ k ih =>
    intro hk
    have hk' : k < titles.length := by omega
    show tmStep titles (k + 1) (tmLoop titles (k + 1)) _ = _
    unfold tmStep
    rw [dif_pos hk, if_neg (Nat.succ_ne_zero k)]
    split
    next hcond =>
      simp only [if_true]
      have hspec : canonicalIdSpec titles (k + 1) = canonicalIdSpec titles k := by
        conv_lhs => unfold canonicalIdSpec
        rw [dif_pos hk, if_pos (show adjSimilar titles k hk from hcond)]
      rw [hspec]
      exact ih hk'
    next hcond =>
      simp only [if_true]
      have hspec : canonicalIdSpec titles (k + 1) = k + 1 := by
        conv_lhs => unfold canonicalIdSpec
        rw [dif_pos hk, if_neg (show ¬ adjSimilar titles k hk from hcond)]
      rw [hspec]

theorem canonicalIdSpec_chain (titles : List String) :
    ∀ b (hb : b < titles.length), ∀ a, a ≤ b →
      (∀ j, a ≤ j → (hj1 : j + 1 ≤ b) → adjSimilar titles j (by omega)) →
      canonicalIdSpec titles b = canonicalIdSpec titles a := by
  intro b
  induction b with
  | zero =>
    intro _ a ha _
    have : a = 0 := by omega
    rw [this]
  | succ b ihb =>
    intro hb a ha hchain
    rcases Nat.eq_or_lt_of_le ha with heq | hlt
    · rw [heq]
    · have hstep := hchain b (by omega) (by omega)
      have h1 : canonicalIdSpec titles (b + 1) = canonicalIdSpec titles b := by
        conv_lhs => unfold canonicalIdSpec
        rw [dif_pos hb, if_pos (show adjSimilar titles b hb from hstep)]
      rw [h1]
      exact ihb (by omega) a (by omega) (fun j hja hj1 => hchain j hja (by omega))

/-- Claim C3: get_title_map assigns record 0 its own index 0; record k+1
is compared (exact equality or similarity) to its immediate predecessor
only, receiving the predecessor's already-resolved canonical id on a
match and its own index k+1 otherwise — the dict entry written for record
k equals the spec-side assignment canonicalIdSpec, and any run of
pairwise-adjacent-matching records a..b collapses to the canonical id
resolved at its earliest record a. -/
theorem claim_C3 (titles : List String) (k : Nat) (hk : k < titles.length) :
    tmLoop titles (k + 1) (titles.get ⟨k, hk⟩) = some (canonicalIdSpec titles k) ∧
    canonicalIdSpec titles 0 = 0 ∧
    (∀ j (hj : j + 1 < titles.length),
      (adjSimilar titles j hj →
        canonicalIdSpec titles (j + 1) = canonicalIdSpec titles j) ∧
      (¬ adjSimilar titles j hj → canonicalIdSpec titles (j + 1) = j + 1)) ∧
    (∀ b (hb : b < titles.length), ∀ a, a ≤ b →
      (∀ j, a ≤ j → (hj1 : j + 1 ≤ b) → adjSimilar titles j (by omega)) →
      canonicalIdSpec titles b = canonicalIdSpec titles a) := by
  refine ⟨tmLoop_self titles k hk, rfl, fun j hj => ⟨fun hsim => ?_, fun hn => ?_⟩,
    canonicalIdSpec_chain titles⟩
  · conv_lhs => unfold canonicalIdSpec
    rw [dif_pos hj, if_pos hsim]
  · conv_lhs => unfold canonicalIdSpec
    rw [dif_pos hj, if_neg hn]

theorem claim_C3_witness :
    1 < (["covid-19 study", "covid-19 study update", "zika outbreak"] : List String).length ∧
    tmLoop ["covid-19 study", "covid-19 study update", "zika outbreak"] 2
      (["covid-19 study", "covid-19 study update", "zika outbreak"].get ⟨1, by decide⟩) =
      some 0 :=
  ⟨by decide,
    (claim_C3 ["covid-19 study", "covid-19 study update", "zika outbreak"] 1
      (by decide)).1.trans (by decide)⟩

theorem tmStep_isSome (titles : List String) (k : Nat) (m : String → Option Nat)
    (hprior : 1 ≤ k → ∀ hkl : k - 1 < titles.length,
      (m (titles.get ⟨k - 1, hkl⟩)).isSome = true)
    (t : String)
    (ht : (m t).isSome = true ∨ ∃ hk : k < titles.length, t = titles.get ⟨k, hk⟩) :
    (tmStep titles k m t).isSome = true := by
  unfold tmStep
  by_cases hk : k < titles.length
  · rw [dif_pos hk]
    by_cases hk0 : k = 0
    · subst hk0
      rw [if_pos rfl]
      by_cases ht0 : t = titles.get ⟨0, hk⟩
      · rw [if_pos ht0]; rfl
      · rw [if_neg ht0]
        rcases ht with h | ⟨hk2, rfl⟩
        · exact h
        · exact absurd rfl ht0
    · rw [if_neg hk0]
      split
      next hcond =>
        simp only []
        by_cases ht0 : t = titles.get ⟨k, hk⟩
        · rw [if_pos ht0]
          exact hprior (by omega) (by omega)
        · rw [if_neg ht0]
          rcases ht with h | ⟨hk2, rfl⟩
          · exact h
          · exact absurd rfl ht0
      next hcond =>
        simp only []
        by_cases ht0 : t = titles.get ⟨k, hk⟩
        · rw [if_pos ht0]; rfl
        · rw [if_neg ht0]
          rcases ht with h | ⟨hk2, rfl⟩
          · exact h
          · exact absurd rfl ht0
  · rw [dif_neg hk]
    rcases ht with h | ⟨hk2, _⟩
    · exact h
    · exact absurd hk2 hk

theorem tmLoop_isSome (titles : List String) :
    ∀ k, k ≤ titles.length → ∀ i, i < k → ∀ hi : i < titles.length,
      (tmLoop titles k (titles.get ⟨i, hi⟩)).isSome = true := by
  intro k
  induction k with
  | zero =>
    intro _ i hik hi
    exact absurd hik (Nat.not_lt_zero i)
  | succ k ih =>
    intro hk1 i hik hi
    show (tmStep titles k (tmLoop titles k) _).isSome = true
    apply tmStep_isSome
    · intro hkge hkl
      have h := tmLoop_self titles (k - 1) hkl
      have e : k - 1 + 1 = k := by omega
      rw [e] at h
      rw [h]
      rfl
    · rcases Nat.lt_succ_iff_lt_or_eq.mp hik with hlt | heq
      · exact Or.inl (ih (by omega) i hlt hi)
      · subst heq
        exact Or.inr ⟨hi, rfl⟩

theorem sorted_prior_eq (titles : List String) (hs : List.Sorted (· ≤ ·) titles)
    {v k : Nat} (hv : v < titles.length) (hk : k < titles.length) (hvk : v < k)
    (heq : titles.get ⟨v, hv⟩ = titles.get ⟨k, hk⟩) :
    titles.get ⟨k - 1, by omega⟩ = titles.get ⟨k, hk⟩ := by
  rcases Nat.lt_or_ge v (k - 1) with h | h
  · have h1 : titles.get ⟨v, hv⟩ ≤ titles.get ⟨k - 1, by omega⟩ :=
      List.Sorted.rel_get_of_lt hs (Fin.mk_lt_mk.mpr (by omega))
    have h2 : titles.get ⟨k - 1, by omega⟩ ≤ titles.get ⟨k, hk⟩ :=
      List.Sorted.rel_get_of_lt hs (Fin.mk_lt_mk.mpr (by omega))
    exact le_antisymm h2 (heq ▸ h1)
  · have hv1 : v = k - 1 := by omega
    subst hv1
    exact heq

theorem tmLoop_fixed (titles : List String) (hs : List.Sorted (· ≤ ·) titles) :
    ∀ k, k ≤ titles.length → ∀ t v, tmLoop titles k t = some v →
      ∃ hv : v < titles.length, v < k ∧
        tmLoop titles k (titles.get ⟨v, hv⟩) = some v := by
  intro k
  induction k with
  | zero =>
    intro _ t v h
    exact absurd h (by simp [tmLoop])
  | succ k ih =>
    intro hk1 t v hveq
    have hk : k < titles.length := by omega
    rw [show tmLoop titles (k + 1) = tmStep titles k (tmLoop titles k) from rfl] at hveq
    unfold tmStep at hveq
    rw [dif_pos hk] at hveq
    by_cases hk0 : k = 0
    · subst hk0
      rw [if_pos rfl] at hveq
      by_cases ht : t = titles.get ⟨0, hk⟩
      · rw [if_pos ht] at hveq
        have hv0 : v = 0 := (Option.some.inj hveq).symm
        subst hv0
        refine ⟨hk, by omega, ?_⟩
        show tmStep titles 0 (tmLoop titles 0) _ = _
        unfold tmStep
        rw [dif_pos hk, if_pos rfl]
        rw [if_pos rfl]
      · rw [if_neg ht] at hveq
        exact absurd hveq (by simp [tmLoop])
    · rw [if_neg hk0] at hveq
      split at hveq
      next hcond =>
        simp only [] at hveq
        by_cases ht : t = titles.get ⟨k, hk⟩
        · rw [if_pos ht] at hveq
          obtain ⟨hv, hvk, hfix⟩ := ih (by omega) _ _ hveq
          refine ⟨hv, by omega, ?_⟩
          show tmStep titles k (tmLoop titles k) _ = _
          unfold tmStep
          rw [dif_pos hk, if_neg hk0, if_pos hcond]
          by_cases htv : titles.get ⟨v, hv⟩ = titles.get ⟨k, hk⟩
          · rw [if_pos htv]
            exact hveq
          · rw [if_neg htv]
            exact hfix
        · rw [if_neg ht] at hveq
          obtain ⟨hv, hvk, hfix⟩ := ih (by omega) _ _ hveq
          refine ⟨hv, by omega, ?_⟩
          show tmStep titles k (tmLoop titles k) _ = _
          unfold tmStep
          rw [dif_pos hk, if_neg hk0, if_pos hcond]
          by_cases htv : titles.get ⟨v, hv⟩ = titles.get ⟨k, hk⟩
          · rw [if_pos htv]
            by_cases hEq : titles.get ⟨k, hk⟩ =
                titles.get ⟨k - 1, (by omega : k - 1 < titles.length)⟩
            · rw [← hEq, ← htv]
              exact hfix
            · have hpe := sorted_prior_eq titles hs hv hk hvk htv
              exact absurd hpe.symm hEq
          · rw [if_neg htv]
            exact hfix
      next hcond =>
        simp only [] at hveq
        by_cases ht : t = titles.get ⟨k, hk⟩
        · rw [if_pos ht] at hveq
          rcases Option.some.inj hveq with rfl
          refine ⟨hk, by omega, ?_⟩
          show tmStep titles k (tmLoop titles k) _ = _
          unfold tmStep
          rw [dif_pos hk, if_neg hk0, if_neg hcond]
          rw [if_pos rfl]
        · rw [if_neg ht] at hveq
          obtain ⟨hv, hvk, hfix⟩ := ih (by omega) _ _ hveq
          refine ⟨hv, by omega, ?_⟩
          show tmStep titles k (tmLoop titles k) _ = _
          unfold tmStep
          rw [dif_pos hk, if_neg hk0, if_neg hcond]
          by_cases htv : titles.get ⟨v, hv⟩ = titles.get ⟨k, hk⟩
          · have hpe := sorted_prior_eq titles hs hv hk hvk htv
            exact absurd (Or.inl hpe.symm) hcond
          · rw [if_neg htv]
            exact hfix

/-- Claim C10: after get_title_map runs over the (title-sorted) record
sequence, every record's title is a key of the map — so the lookups
title_map[row.title] in get_citations and title_map[prior_title] during
get_title_map itself never fail — and every canonical id v stored in the
map is a fixed point: the map sends the title of record v back to v. -/
theorem claim_C10 (titles : List String) (hs : List.Sorted (· ≤ ·) titles) :
    (∀ i (hi : i < titles.length),
      (get_title_map titles (titles.get ⟨i, hi⟩)).isSome = true) ∧
    (∀ k (hk : k < titles.length),
      (tmLoop titles (k + 1) (titles.get ⟨k, hk⟩)).isSome = true) ∧
    (∀ t v, get_title_map titles t = some v →
      ∃ hv : v < titles.length,
        get_title_map titles (titles.get ⟨v, hv⟩) = some v) := by
  refine ⟨?_, ?_, ?_⟩
  · intro i hi
    exact tmLoop_isSome titles titles.length (le_refl _) i hi hi
  · intro k hk
    rw [tmLoop_self titles k hk]
    rfl
  · intro t v h
    obtain ⟨hv, _, hfix⟩ := tmLoop_fixed titles hs titles.length (le_refl _) t v h
    exact ⟨hv, hfix⟩

theorem claim_C10_witness :
    List.Sorted (· ≤ ·) (["the exact same title", "the exact same title"] : List String) ∧
    (get_title_map ["the exact same title", "the exact same title"]
      "the exact same title").isSome = true := by
  have hs : List.Sorted (· ≤ ·)
      (["the exact same title", "the exact same title"] : List String) := by
    simp [List.sorted_cons]
  exact ⟨hs, (claim_C10 ["the exact same title", "the exact same title"] hs).1 0 (by decide)⟩

theorem filterMap_length_countP {α β : Type} (f : α → Option β) (l : List α) :
    (l.filterMap f).length = l.countP (fun a => (f a).isSome) := by
  induction l with
  | nil => rfl
  | cons a l ih =>
    cases hfa : f a <;>
      simp [List.filterMap_cons, hfa, List.countP_cons, ih]

theorem get_citations_singleton (tm : String → Option Nat)
    (bib : String → List String) (row : PaperRow) (es : List (Nat × Nat))
    (h : row_citations tm bib row = some es) :
    get_citations [row] tm bib = some es := by
  unfold get_citations
  rw [h]
  rw [show (get_citations [] tm bib : Option (List (Nat × Nat))) = some [] from rfl]
  show some (es ++ []) = some es
  rw [List.append_nil]

/-- Claim C4: citation resolution looks cited titles up by exact string
match only — for one record whose own title resolves to fromIdx and whose
bibliography source was selected, every cited-title occurrence that is a
key of the map contributes exactly one edge (fromIdx, mapped id), every
occurrence absent from the map (however similar to a key) contributes
nothing, and no error is raised; get_citations collects exactly these
edges. -/
theorem claim_C4 (tm : String → Option Nat) (bib : String → List String)
    (row : PaperRow) (fromIdx : Nat) (p : String)
    (hfrom : tm row.title = some fromIdx)
    (hp : selectJsonPath row = some p) :
    ∃ es, row_citations tm bib row = some es ∧
      get_citations [row] tm bib = some es ∧
      es.length = (bib (resolvedPath p)).countP (fun t => (tm t).isSome) ∧
      (∀ e ∈ es, e.1 = fromIdx ∧ ∃ t ∈ bib (resolvedPath p), tm t = some e.2) ∧
      (∀ t ∈ bib (resolvedPath p), ∀ v, tm t = some v → (fromIdx, v) ∈ es) := by
  have hrow : row_citations tm bib row = some ((bib (resolvedPath p)).filterMap
      (fun cited => (tm cited).map (fun toIdx => (fromIdx, toIdx)))) := by
    unfold row_citations
    rw [hfrom, hp]
  refine ⟨(bib (resolvedPath p)).filterMap
    (fun cited => (tm cited).map (fun toIdx => (fromIdx, toIdx))), hrow,
    get_citations_singleton tm bib row _ hrow, ?_, ?_, ?_⟩
  · rw [filterMap_length_countP]
    congr 1
    funext t
    cases htm : tm t <;> simp [htm]
  · intro e he
    rw [List.mem_filterMap] at he
    obtain ⟨t, htmem, hft⟩ := he
    cases htm : tm t with
    | none =>
      rw [htm] at hft
      exact absurd hft (by simp)
    | some v =>
      rw [htm] at hft
      have he2 : (fromIdx, v) = e := Option.some.inj hft
      rw [← he2]
      exact ⟨rfl, t, htmem, htm⟩
  · intro t htmem v htm
    rw [List.mem_filterMap]
    refine ⟨t, htmem, ?_⟩
    rw [htm]
    rfl

theorem claim_C4_witness :
    tmW "alpha paper title" = some 0 ∧
    selectJsonPath rowW = some "pmc/alpha.json" ∧
    ∃ es, row_citations tmW bibW rowW = some es ∧
      get_citations [rowW] tmW bibW = some es ∧
      es.length = (bibW (resolvedPath "pmc/alpha.json")).countP (fun t => (tmW t).isSome) ∧
      (∀ e ∈ es, e.1 = 0 ∧ ∃ t ∈ bibW (resolvedPath "pmc/alpha.json"), tmW t = some e.2) ∧
      (∀ t ∈ bibW (resolvedPath "pmc/alpha.json"), ∀ v, tmW t = some v → (0, v) ∈ es) :=
  ⟨by decide, by decide,
    claim_C4 tmW bibW rowW 0 "pmc/alpha.json" (by decide) (by decide)⟩

/-- Claim C8: bibliography-source selection prefers the pmc json field;
when it is absent (NaN) or empty it falls back to the pdf json field;
when both are absent or empty the record contributes zero edges and no
error; and the record's edges depend on the bibliography content only
through the first semicolon-separated path of the selected reference. -/
theorem claim_C8 (tm : String → Option Nat) (bib : String → List String)
    (row : PaperRow) (fromIdx : Nat)
    (hfrom : tm row.title = some fromIdx) :
    (notUsable row.pmc_json_files = false →
      selectJsonPath row = row.pmc_json_files) ∧
    (notUsable row.pmc_json_files = true → notUsable row.pdf_json_files = false →
      selectJsonPath row = row.pdf_json_files) ∧
    (notUsable row.pmc_json_files = true → notUsable row.pdf_json_files = true →
      row_citations tm bib row = some []) ∧
    (∀ p bib2, selectJsonPath row = some p →
      bib2 (resolvedPath p) = bib (resolvedPath p) →
      row_citations tm bib2 row = row_citations tm bib row) := by
  refine ⟨fun h1 => ?_, fun h1 h2 => ?_, fun h1 h2 => ?_, fun p bib2 hp hbib => ?_⟩
  · simp [selectJsonPath, h1]
  · simp [selectJsonPath, h1, h2]
  · have hsel : selectJsonPath row = none := by simp [selectJsonPath, h1, h2]
    unfold row_citations
    rw [hfrom, hsel]
  · unfold row_citations
    simp only [hfrom, hp, hbib]

theorem claim_C8_witness :
    tmW "alpha paper title" = some 0 ∧
    selectJsonPath rowW = rowW.pmc_json_files :=
  ⟨by decide,
    (claim_C8 tmW bibW rowW 0 (by decide)).1 (by decide)⟩

theorem add_edge_idem (G : NxGraph) (a b : Nat) :
    add_edge (add_edge G a b) a b = add_edge G a b := by
  unfold add_edge
  simp only [NxGraph.mk.injEq]
  constructor
  · ext x
    simp only [Finset.mem_insert]
    tauto
  · rw [Finset.insert_idem]

theorem nodes_foldl_graph (cs : List (Nat × Nat)) :
    ∀ (G : NxGraph) (n : Nat),
      n ∈ (cs.foldl (fun G c => add_edge G c.1 c.2) G).nodes ↔
        n ∈ G.nodes ∨ ∃ e ∈ cs, n = e.1 ∨ n = e.2 := by
  induction cs with
  | nil =>
    intro G n
    simp
  | cons c cs ih =>
    intro G n
    simp only [List.foldl_cons]
    rw [ih]
    simp only [add_edge, Finset.mem_insert, List.mem_cons, exists_eq_or_imp]
    aesop

/-- Claim C6: graph building is idempotent under repeated edges — adding
an edge already present (including a self-loop) does not fail, yields the
same graph, and in particular leaves node and edge counts unchanged; and
a canonical id becomes a node exactly when it is an endpoint of some
citation edge. -/
theorem claim_C6 (cs : List (Nat × Nat)) (c : Nat × Nat) :
    get_networkx_graph (cs ++ [c, c]) = get_networkx_graph (cs ++ [c]) ∧
    (get_networkx_graph (cs ++ [c, c])).nodes.card =
      (get_networkx_graph (cs ++ [c])).nodes.card ∧
    (get_networkx_graph (cs ++ [c, c])).edges.card =
      (get_networkx_graph (cs ++ [c])).edges.card ∧
    (∀ n, n ∈ (get_networkx_graph cs).nodes ↔ ∃ e ∈ cs, n = e.1 ∨ n = e.2) := by
  have h1 : get_networkx_graph (cs ++ [c, c]) = get_networkx_graph (cs ++ [c]) := by
    unfold get_networkx_graph
    rw [List.foldl_append, List.foldl_append]
    simp only [List.foldl_cons, List.foldl_nil]
    exact add_edge_idem _ _ _
  refine ⟨h1, by rw [h1], by rw [h1], ?_⟩
  intro n
  unfold get_networkx_graph
  rw [nodes_foldl_graph]
  simp

/-- Claim C7: on the empty graph (no citation edge was ever produced, so
no node exists either) the distillation step does not return a graph: the
largest-component selection fails — Python's max on an empty sequence —
modelled as the none result. -/
theorem claim_C7 (score : NxGraph → Nat → ℚ) :
    post_processing_nx_graph score (get_networkx_graph []) = none := by
  rfl

theorem msortNat_mem (m : Multiset Nat) (n : Nat) : n ∈ msortNat m ↔ n ∈ m := by
  refine Quot.inductionOn m fun l => ?_
  exact (List.perm_insertionSort _ l).mem_iff.trans Multiset.mem_coe.symm

theorem msortNat_length (m : Multiset Nat) : (msortNat m).length = Multiset.card m := by
  refine Quot.inductionOn m fun l => ?_
  exact List.length_insertionSort _ l

theorem msortNat_nodup (m : Multiset Nat) (h : m.Nodup) : (msortNat m).Nodup := by
  revert h
  refine Quot.inductionOn m fun l h => ?_
  exact (List.perm_insertionSort _ l).symm.nodup (Multiset.coe_nodup.mp h)

theorem sortedNodes_mem (s : Finset Nat) (n : Nat) : n ∈ sortedNodes s ↔ n ∈ s :=
  msortNat_mem s.val n

theorem sortedNodes_length (s : Finset Nat) : (sortedNodes s).length = s.card :=
  msortNat_length s.val

theorem sortedNodes_nodup (s : Finset Nat) : (sortedNodes s).Nodup :=
  msortNat_nodup s.val s.nodup

theorem foldl_union_subset (N : Finset Nat) :
    ∀ (l : List (Finset Nat)) (acc : Finset Nat), acc ⊆ N → (∀ s ∈ l, s ⊆ N) →
      l.foldl (· ∪ ·) acc ⊆ N := by
  intro l
  induction l with
  | nil =>
    intro acc ha _
    exact ha
  | cons s l ih =>
    intro acc ha hl
    simp only [List.foldl_cons]
    exact ih (acc ∪ s) (Finset.union_subset ha (hl s (by simp)))
      (fun t ht => hl t (by simp [ht]))

theorem mergeStep_subset {N : Finset Nat} {comps : List (Finset Nat)}
    (h : ∀ s ∈ comps, s ⊆ N) (a b : Nat) :
    ∀ s ∈ mergeStep comps a b, s ⊆ N := by
  intro s hs
  unfold mergeStep at hs
  rcases List.mem_cons.mp hs with rfl | hmem
  · exact foldl_union_subset N _ ∅ (Finset.empty_subset N)
      (fun t ht => h t (List.mem_filter.mp ht).1)
  · exact h s (List.mem_filter.mp hmem).1

theorem comps_fold_subset (N : Finset Nat) :
    ∀ (es : List (Nat × Nat)) (init : List (Finset Nat)),
      (∀ s ∈ init, s ⊆ N) →
      ∀ s ∈ es.foldl (fun cs e => mergeStep cs e.1 e.2) init, s ⊆ N := by
  intro es
  induction es with
  | nil =>
    intro init h
    exact h
  | cons e es ih =>
    intro init h
    simp only [List.foldl_cons]
    exact ih _ (mergeStep_subset h e.1 e.2)

theorem connected_components_subset (G : NxGraph) :
    ∀ s ∈ connected_components G, s ⊆ G.nodes := by
  apply comps_fold_subset
  intro s hs
  rw [List.mem_map] at hs
  obtain ⟨n, hn, rfl⟩ := hs
  intro x hx
  rw [Finset.mem_singleton] at hx
  subst hx
  exact (sortedNodes_mem G.nodes x).mp hn

theorem comps_fold_ne_nil :
    ∀ (es : List (Nat × Nat)) (init : List (Finset Nat)), init ≠ [] →
      es.foldl (fun cs e => mergeStep cs e.1 e.2) init ≠ [] := by
  intro es
  induction es with
  | nil =>
    intro init h
    exact h
  | cons e es ih =>
    intro init _
    simp only [List.foldl_cons]
    exact ih _ (by unfold mergeStep; simp)

theorem connected_components_ne_nil (G : NxGraph) (h : G.nodes.Nonempty) :
    connected_components G ≠ [] := by
  apply comps_fold_ne_nil
  have hcard := Finset.card_pos.mpr h
  intro hmap
  rw [List.map_eq_nil_iff] at hmap
  have hlen := sortedNodes_length G.nodes
  rw [hmap] at hlen
  simp at hlen
  omega

theorem maxByLen_spec :
    ∀ (cs : List (Finset Nat)) (c : Finset Nat),
      maxByLen c cs ∈ c :: cs ∧ ∀ x ∈ c :: cs, x.card ≤ (maxByLen c cs).card := by
  intro cs
  induction cs with
  | nil =>
    intro c
    constructor
    · exact List.mem_singleton.mpr rfl
    · intro x hx
      rw [List.mem_singleton] at hx
      rw [hx]
      exact le_refl _
  | cons d cs ih =>
    intro c
    rw [show maxByLen c (d :: cs) = maxByLen (if c.card < d.card then d else c) cs from rfl]
    obtain ⟨hmem, hle⟩ := ih (if c.card < d.card then d else c)
    constructor
    · rcases List.mem_cons.mp hmem with h | h
      · rw [h]
        by_cases hcd : c.card < d.card
        · rw [if_pos hcd]
          exact List.mem_cons_of_mem _ (List.mem_cons_self _ _)
        · rw [if_neg hcd]
          exact List.mem_cons_self _ _
      · exact List.mem_cons_of_mem _ (List.mem_cons_of_mem _ h)
    · intro x hx
      rcases List.mem_cons.mp hx with rfl | hx'
      · have h1 : x.card ≤ (if x.card < d.card then d else x).card := by
          split
          · omega
          · exact le_refl _
        exact le_trans h1 (hle _ (List.mem_cons_self _ _))
      · rcases List.mem_cons.mp hx' with rfl | hx''
        · have h1 : x.card ≤ (if c.card < x.card then x else c).card := by
            split
            · exact le_refl _
            · omega
          exact le_trans h1 (hle _ (List.mem_cons_self _ _))
        · exact hle _ (List.mem_cons_of_mem _ hx'')

theorem nlargest_length (k : Nat) (l : List Nat) (key : Nat → ℚ) :
    (nlargest k l key).length = min k l.length := by
  unfold nlargest
  rw [List.length_take, List.length_insertionSort]

theorem nlargest_subset (k : Nat) (l : List Nat) (key : Nat → ℚ) :
    ∀ x ∈ nlargest k l key, x ∈ l := by
  intro x hx
  unfold nlargest at hx
  exact (List.perm_insertionSort _ l).mem_iff.mp (List.take_subset _ _ hx)

theorem nlargest_nodup (k : Nat) (l : List Nat) (key : Nat → ℚ) (h : l.Nodup) :
    (nlargest k l key).Nodup := by
  unfold nlargest
  have hs : (l.insertionSort (fun a b => key b ≤ key a)).Nodup :=
    (List.perm_insertionSort _ l).symm.nodup h
  exact hs.sublist (List.take_sublist _ _)

/-- Claim C5: for a nonempty graph, distillation restricts the graph to a
connected component of maximum node count and then keeps the 500
highest-scoring nodes of that component: the result exists (some H), all
of its nodes lie inside that component, and its node count is exactly
min(component size, 500) — for every centrality score function. -/
theorem claim_C5 (score : NxGraph → Nat → ℚ) (G : NxGraph)
    (hne : G.nodes.Nonempty) :
    ∃ comp H, post_processing_nx_graph score G = some H ∧
      comp ∈ connected_components G ∧
      (∀ d ∈ connected_components G, d.card ≤ comp.card) ∧
      H.nodes ⊆ comp ∧
      H.nodes.card = min comp.card 500 := by
  obtain ⟨c, cs, hcs⟩ := List.exists_cons_of_ne_nil (connected_components_ne_nil G hne)
  obtain ⟨hmem, hmax⟩ := maxByLen_spec cs c
  have hlc : largest_component G = some (maxByLen c cs) := by
    unfold largest_component
    rw [hcs]
  have hcompsub : maxByLen c cs ⊆ G.nodes :=
    connected_components_subset G _ (hcs ▸ hmem)
  have hG1 : (subgraphOn G (maxByLen c cs)).nodes = maxByLen c cs := by
    show G.nodes ∩ maxByLen c cs = maxByLen c cs
    exact Finset.inter_eq_right.mpr hcompsub
  have hpost : post_processing_nx_graph score G =
      some (subgraphOn (subgraphOn G (maxByLen c cs))
        ((nlargest 500 (sortedNodes (subgraphOn G (maxByLen c cs)).nodes)
          (score (subgraphOn G (maxByLen c cs)))).toFinset)) := by
    unfold post_processing_nx_graph
    rw [hlc]
  have hsel_sub : (nlargest 500 (sortedNodes (subgraphOn G (maxByLen c cs)).nodes)
      (score (subgraphOn G (maxByLen c cs)))).toFinset ⊆
      (subgraphOn G (maxByLen c cs)).nodes := by
    intro x hx
    rw [List.mem_toFinset] at hx
    exact (sortedNodes_mem _ x).mp (nlargest_subset _ _ _ x hx)
  have hHnodes : (subgraphOn (subgraphOn G (maxByLen c cs))
      ((nlargest 500 (sortedNodes (subgraphOn G (maxByLen c cs)).nodes)
        (score (subgraphOn G (maxByLen c cs)))).toFinset)).nodes =
      (nlargest 500 (sortedNodes (subgraphOn G (maxByLen c cs)).nodes)
        (score (subgraphOn G (maxByLen c cs)))).toFinset := by
    show (subgraphOn G (maxByLen c cs)).nodes ∩ _ = _
    exact Finset.inter_eq_right.mpr hsel_sub
  refine ⟨maxByLen c cs, _, hpost, hcs ▸ hmem, fun d hd => hmax d (hcs ▸ hd), ?_, ?_⟩
  · rw [hHnodes]
    intro x hx
    have hx1 := hsel_sub hx
    rw [hG1] at hx1
    exact hx1
  · rw [hHnodes]
    rw [List.toFinset_card_of_nodup (nlargest_nodup _ _ _ (sortedNodes_nodup _))]
    rw [nlargest_length, sortedNodes_length, hG1, Nat.min_comm]

theorem claim_C5_witness :
    (get_networkx_graph [(0, 1), (1, 2), (5, 6)]).nodes.Nonempty ∧
    ∃ comp H,
      post_processing_nx_graph scoreW (get_networkx_graph [(0, 1), (1, 2), (5, 6)]) =
        some H ∧
      comp ∈ connected_components (get_networkx_graph [(0, 1), (1, 2), (5, 6)]) ∧
      (∀ d ∈ connected_components (get_networkx_graph [(0, 1), (1, 2), (5, 6)]),
        d.card ≤ comp.card) ∧
      H.nodes ⊆ comp ∧
      H.nodes.card = min comp.card 500 :=
  ⟨by decide, claim_C5 scoreW (get_networkx_graph [(0, 1), (1, 2), (5, 6)]) (by decide)⟩
